import Mathlib

/-
  Verification development for the habito habit-tracking assistant.

  Shallow embedding of the core components:
  * `utils/constants.py`  — habit taxonomy, keyword lists, goal regex patterns
  * `services/ai_service.py` — the command interpreter (enhanced deterministic
    parsing, oracle fallback, simple fallback parse)
  * `services/analytics_service.py` — streak and weekly-progress computations
  * `services/habit_service.py` — confirmation gate and action executor
  * `utils/helpers.py` — session timeout check

  Conventions of the embedding:
  * Python strings are Lean `String`s; substring tests (`x in y`) are the
    executable `hasSub` on the underlying character lists.
  * The fixed regular expressions of the source are embedded as token lists
    (`Tok`) with an executable leftmost, greedy, backtracking matcher
    (`mtch` / `reSearch`) mirroring Python `re.search` on these patterns.
  * Timestamps are modelled at second precision as a `DateTime` structure with
    a day number (days since a fixed Monday, so `weekday() = day % 7`) and a
    second-of-day; an event's stored time string is modelled as
    `Option DateTime`, `none` standing for a string the source's
    `strptime` would fail to parse (the source skips such events).
  * The OpenAI call of `_call_openai_parse` is an external oracle; its decoded
    JSON response is modelled as `Option OracleResp`, where `none` stands for
    any call failure, timeout, non-JSON or otherwise exception-raising
    response, and `some r` for a decoded JSON object whose four expected keys
    are each optionally present.
  * Python dict state (goals) is modelled as a function `String → Option _`;
    per-user session state mutation is explicit state passing.
-/

namespace Habito

/-! ## String helpers -/

/-- Characters of a string lowercased, as Python `str.lower`. -/
def lowerData (s : String) : List Char := s.data.map Char.toLower

/-- Strip leading and trailing whitespace, as Python `str.strip`. -/
def trimData (l : List Char) : List Char :=
  ((l.dropWhile Char.isWhitespace).reverse.dropWhile Char.isWhitespace).reverse

/-- Does `pat` occur at the head of the second list? -/
def leadMatch : List Char → List Char → Bool
  | [], _ => true
  | _ :: _, [] => false
  | c :: cs, d :: ds => c == d && leadMatch cs ds

/-- Substring containment, as Python `pat in hay`. -/
def hasSub (pat : List Char) : List Char → Bool
  | [] => leadMatch pat []
  | c :: rest => leadMatch pat (c :: rest) || hasSub pat rest

/-- Word character of the regex class `\w` (ASCII fragment). -/
def isWordChar (c : Char) : Bool := c.isAlphanum || c == '_'

/-- Numeric value of a digit run, as Python `int`. -/
def digitsToNat (l : List Char) : Nat := l.foldl (fun a c => 10 * a + (c.toNat - 48)) 0

/-- First maximal run of digits in the text, as `re.findall(r'\d+', t)[0]`. -/
def firstDigitRun : List Char → Option (List Char)
  | [] => none
  | c :: rest =>
    if c.isDigit then some (c :: rest.takeWhile Char.isDigit) else firstDigitRun rest

/-! ## Embedded regular expressions

The five `GOAL_PATTERNS` and the duration pattern of the source are all
concatenations of literals, optional literals, literal alternations, and the
character-class groups `(\w+)` and `(\d+)` (plus `\s*`).  `mtch` matches a
token list against the head of a text with Python's leftmost/greedy
backtracking discipline; `reSearch` tries every start position left to
right, as `re.search`. -/

inductive Tok where
  | lit (s : List Char)
  | optLit (s : List Char)
  | altLit (ss : List (List Char))
  | wordGrp
  | digitGrp
  | wsStar
deriving Repr, DecidableEq

/-- Drop a literal from the head of the text, if present. -/
def dropLit : List Char → List Char → Option (List Char)
  | [], s => some s
  | _ :: _, [] => none
  | c :: cs, d :: ds => if c == d then dropLit cs ds else none

/-- All splits `(take k, drop k)` of a list, longest prefix first
(greedy matching tries long captures before short ones). -/
def splitsDesc (l : List Char) : List (List Char × List Char) :=
  (List.range (l.length + 1)).reverse.map fun k => (l.take k, l.drop k)

/-- Match a token list at the head of `s`, accumulating captured groups;
returns the groups and the unconsumed remainder on success. -/
def mtch : List Tok → List Char → List (List Char) → Option (List (List Char) × List Char)
  | [], s, gs => some (gs, s)
  | Tok.lit l :: ts, s, gs =>
    (match dropLit l s with
     | some s2 => mtch ts s2 gs
     | none => none)
  | Tok.optLit l :: ts, s, gs =>
    (match dropLit l s with
     | some s2 => mtch ts s2 gs
     | none => none) <|> mtch ts s gs
  | Tok.altLit ls :: ts, s, gs =>
    ls.findSome? fun l =>
      match dropLit l s with
      | some s2 => mtch ts s2 gs
      | none => none
  | Tok.wordGrp :: ts, s, gs =>
    (splitsDesc (s.takeWhile isWordChar)).findSome? fun pr =>
      if pr.1.isEmpty then none
      else mtch ts (pr.2 ++ s.dropWhile isWordChar) (gs ++ [pr.1])
  | Tok.digitGrp :: ts, s, gs =>
    (splitsDesc (s.takeWhile Char.isDigit)).findSome? fun pr =>
      if pr.1.isEmpty then none
      else mtch ts (pr.2 ++ s.dropWhile Char.isDigit) (gs ++ [pr.1])
  | Tok.wsStar :: ts, s, gs =>
    (splitsDesc (s.takeWhile Char.isWhitespace)).findSome? fun pr =>
      mtch ts (pr.2 ++ s.dropWhile Char.isWhitespace) gs

/-- Search as `re.search`: leftmost match; returns the captured groups and the whole
matched span (`group(0)`). -/
def reSearch (p : List Tok) : List Char → Option (List (List Char) × List Char)
  | [] =>
    (match mtch p [] [] with
     | some (gs, _) => some (gs, [])
     | none => none)
  | c :: t =>
    (match mtch p (c :: t) [] with
     | some (gs, rest) => some (gs, (c :: t).take ((c :: t).length - rest.length))
     | none => reSearch p t)

/-! ## Constants (`utils/constants.py`) -/

def HABIT_CATEGORIES : List (String × List String) := [
  ("🏃 Health & Fitness", ["workout", "yoga", "running", "gym", "walking", "stretching", "sports"]),
  ("🧠 Mental & Learning", ["reading", "meditating", "journaling", "learning", "studying", "gratitude"]),
  ("💻 Productivity", ["coding", "writing", "planning", "organizing", "learning english"]),
  ("🌱 Lifestyle", ["sleep early", "no phone", "drinking water", "healthy eating", "cleaning", "cooking"]),
  ("🎨 Creative", ["drawing", "music", "photography", "crafting", "dancing"]),
  ("👥 Social", ["calling family", "meeting friends", "networking", "volunteering"])]

/-- Flattened categories, in category iteration order. -/
def COMMON_HABITS : List String := (HABIT_CATEGORIES.map Prod.snd).flatten

def DEFAULT_GOALS : List (String × Int) := [
  ("workout", 5), ("running", 4), ("yoga", 6), ("gym", 4),
  ("reading", 7), ("meditating", 7), ("journaling", 7),
  ("coding", 5), ("learning", 5), ("studying", 5),
  ("drinking water", 7), ("sleep early", 7), ("healthy eating", 7)]

/-- The five `GOAL_PATTERNS` regexes, as token lists.  Group order is
(habit, target) in each. -/
def GOAL_PATTERNS : List (List Tok) := [
  [Tok.lit "set goal ".data, Tok.optLit "for ".data, Tok.wordGrp, Tok.lit " ".data,
   Tok.digitGrp, Tok.lit " time".data, Tok.optLit "s".data, Tok.lit " ".data,
   Tok.altLit ["per".data, "a".data, "each".data], Tok.lit " week".data],
  [Tok.lit "i want to do ".data, Tok.wordGrp, Tok.lit " ".data,
   Tok.digitGrp, Tok.lit " time".data, Tok.optLit "s".data, Tok.lit " ".data,
   Tok.altLit ["per".data, "a".data, "each".data], Tok.lit " week".data],
  [Tok.lit "goal for ".data, Tok.wordGrp, Tok.lit " is ".data,
   Tok.digitGrp, Tok.lit " ".data,
   Tok.altLit ["per".data, "a".data, "each".data], Tok.lit " week".data],
  [Tok.wordGrp, Tok.lit " goal ".data, Tok.digitGrp, Tok.lit " time".data,
   Tok.optLit "s".data, Tok.lit " weekly".data],
  [Tok.lit "target ".data, Tok.wordGrp, Tok.lit " ".data,
   Tok.digitGrp, Tok.lit " time".data, Tok.optLit "s".data, Tok.lit " ".data,
   Tok.altLit ["per".data, "a".data], Tok.lit " week".data]]

def STREAK_KEYWORDS : List String := ["streak", "how many days", "consecutive", "in a row", "daily streak"]
def PROGRESS_KEYWORDS : List String := ["how am i doing", "weekly progress", "this week", "my progress", "progress report"]
def DASHBOARD_KEYWORDS : List String := ["progress", "dashboard", "stats", "analytics", "how am i doing", "show my", "report"]

/-- An apostrophe character (U+0027). -/
def apos : Char := Char.ofNat 39

def CONFIRM_WORDS : List String :=
  ["yes", "confirm", "correct", String.mk ("that".data ++ [apos] ++ "s right".data), "yep"]
def CANCEL_WORDS : List String := ["no", "cancel", "wrong", "not correct", "nope"]
def HELP_WORDS : List String := ["help", "how to use", "instructions", "what can i say"]
def EXPORT_WORDS : List String := ["export", "download", "backup", "save data"]

/-- The fixed intent enumeration of the specification. -/
def INTENT_ENUM : List String :=
  ["log", "add", "delete", "set_goal", "streak_query", "progress_query",
   "dashboard", "confirm", "cancel", "help", "export", "query"]

/-! ## The command interpreter (`services/ai_service.py`) -/

/-- Embedding of `models/habit.py` `VoiceCommand`. -/
structure VoiceCommand where
  intent : String
  habits : List String
  duration : String := ""
  target : Int := 0
deriving Repr, DecidableEq

/-- Duration regex `(\d+)\s*(hour|minute|min)s?` applied to the lowered text;
`group(0)` of the first match, or the empty string. -/
def durationScan (t : List Char) : String :=
  match reSearch [Tok.digitGrp, Tok.wsStar,
                  Tok.altLit ["hour".data, "minute".data, "min".data],
                  Tok.optLit "s".data] t with
  | some (_, span) => ⟨span⟩
  | none => ""

def anyKw (ks : List String) (t : List Char) : Bool := ks.any fun k => hasSub k.data t

/-- The intent/target if-elif chain of `AIService._simple_parse`. -/
def simpleIT (t : List Char) : String × Int :=
  if hasSub "add".data t || hasSub "create".data t then ("add", 0)
  else if hasSub "delete".data t || hasSub "remove".data t then ("delete", 0)
  else if hasSub "goal".data t && t.any Char.isDigit then
    ("set_goal", (match firstDigitRun t with
                  | some n => Int.ofNat (digitsToNat n)
                  | none => 7))
  else ("log", 0)

/-- Body of `AIService._simple_parse` on the lowercased character data. -/
def simpleCore (t : List Char) : VoiceCommand :=
  if anyKw DASHBOARD_KEYWORDS t then ⟨"dashboard", [], "", 0⟩
  else ⟨(simpleIT t).1, COMMON_HABITS.filter (fun h => hasSub h.data t),
        durationScan t, (simpleIT t).2⟩

/-- Embedding of `AIService._simple_parse`. -/
def simpleParseCmd (text : String) : VoiceCommand := simpleCore (lowerData text)

/-- Step 1 of `AIService._enhanced_voice_parsing`: the `GOAL_PATTERNS` loop.
A pattern match whose captured habit is not taxonomy-known falls through to
the next pattern, exactly as in the source. -/
def goalStep (t : List Char) : Option VoiceCommand :=
  GOAL_PATTERNS.findSome? fun pat =>
    match reSearch pat t with
    | some ([h, n], _) =>
      let hs : String := ⟨h⟩
      if hs ∈ COMMON_HABITS then some ⟨"set_goal", [hs], "", Int.ofNat (digitsToNat n)⟩
      else none
    | _ => none

/-- Deterministic steps of `AIService._enhanced_voice_parsing`, on the
lowercased and stripped character data; `none` means the source falls
through to the OpenAI oracle call. -/
def enhancedCore (t : List Char) : Option VoiceCommand :=
  match goalStep t with
  | some c => some c
  | none =>
    if anyKw STREAK_KEYWORDS t then
      some (match COMMON_HABITS.find? (fun h => hasSub h.data t) with
            | some h => ⟨"streak_query", [h], "", 0⟩
            | none => ⟨"streak_query", [], "", 0⟩)
    else if anyKw PROGRESS_KEYWORDS t then some ⟨"progress_query", [], "", 0⟩
    else if anyKw DASHBOARD_KEYWORDS t then some ⟨"dashboard", [], "", 0⟩
    else if anyKw CONFIRM_WORDS t then some ⟨"confirm", [], "", 0⟩
    else if anyKw CANCEL_WORDS t then some ⟨"cancel", [], "", 0⟩
    else if anyKw HELP_WORDS t then some ⟨"help", [], "", 0⟩
    else if anyKw EXPORT_WORDS t then some ⟨"export", [], "", 0⟩
    else none

/-- Embedding of `AIService._enhanced_voice_parsing`. -/
def enhancedVoiceParsing (raw : String) : Option VoiceCommand :=
  enhancedCore (trimData (lowerData raw))

/-- Decoded JSON object returned by the oracle: each expected key is
optionally present.  Any response on which `_call_openai_parse` would raise
internally (network failure, non-JSON output, wrongly typed fields) is
modelled as the absent response `none : Option OracleResp`. -/
structure OracleResp where
  intent : Option String
  habits : Option (List String)
  duration : Option String
  target : Option Int
deriving Repr, DecidableEq

/-- Habit post-filtering of `_call_openai_parse`:
`[h.lower().strip() for h in habits if h.strip()]` then the taxonomy filter. -/
def sanitizeHabits (hs : List String) : List String :=
  ((hs.filter (fun h => trimData h.data ≠ [])).map
      (fun h => (⟨trimData (lowerData h)⟩ : String))).filter
    (fun h => h ∈ COMMON_HABITS)

/-- Embedding of `AIService.parse_voice_command`.  The deterministic steps of
`_enhanced_voice_parsing` yield complete dicts, so `VoiceCommand(**data)`
succeeds on them; an oracle dict lacking `intent` or `habits` makes the
construction raise, which the outer handler turns into `_simple_parse`;
a failed oracle call is turned into `_simple_parse` by `_call_openai_parse`
itself. -/
def parseVoiceCommand (oracle : Option OracleResp) (raw : String) : VoiceCommand :=
  match enhancedVoiceParsing raw with
  | some c => c
  | none =>
    match oracle with
    | none => simpleParseCmd raw
    | some r =>
      match r.intent, r.habits with
      | some i, some hs => ⟨i, sanitizeHabits hs, r.duration.getD "", r.target.getD 0⟩
      | some _, none => simpleParseCmd raw
      | none, _ => simpleParseCmd raw

/-! ## Timestamps and events -/

/-- A well-formed second-precision timestamp.  `day` counts days since a
fixed reference Monday (so Python `weekday()` is `day % 7` with Monday = 0);
`sec` is the second of the day.  As a convenient instance, day 0 may be read
as 2024-01-01, which was a Monday. -/
structure DateTime where
  day : Int
  sec : Int
deriving Repr, DecidableEq

/-- Python `datetime` comparison `a <= b` (lexicographic on day, then second). -/
def dtLe (a b : DateTime) : Bool := a.day < b.day || (a.day == b.day && a.sec ≤ b.sec)

/-- Embedding of `models/habit.py` `Habit`, one entry of `st.session_state.habit_logs`.
`time` is `none` when the stored string would fail `strptime`. -/
structure HabitEvent where
  habit : String
  action : String
  time : Option DateTime
  type : String
  duration : String := ""
deriving Repr, DecidableEq

/-! ## Streak engine (`services/analytics_service.py`) -/

/-- The backward walk of `AnalyticsService.calculate_streaks` over the
deduplicated, descending-sorted list of logged dates. -/
def streakWalk : List Int → Int → Nat → Nat
  | [], _, streak => streak
  | d :: rest, current, streak =>
    if d = current then streakWalk rest (current - 1) (streak + 1)
    else if d < current then
      (if current - d = 1 ∧ streak = 0 then streakWalk rest (d - 1) 1
       else streak)
    else streakWalk rest current streak

/-- Dates (as day numbers) on which a parseable `log`-type event for `habit`
appears, in event-log order, duplicates kept. -/
def habitLogDates (logs : List HabitEvent) (habit : String) : List Int :=
  ((logs.filter (fun e => e.type == "log")).filter
      (fun e => e.habit == habit)).filterMap (fun e => e.time.map DateTime.day)

/-- Embedding of `AnalyticsService.calculate_streaks`, per habit; the source's returned
dict maps exactly the habits with a non-zero streak to that streak, which we
model extensionally as this function (value 0 = omitted from the dict). -/
def calculateStreaks (logs : List HabitEvent) (today : Int) (habit : String) : Nat :=
  streakWalk (List.insertionSort (· ≥ ·) (habitLogDates logs habit).dedup) today 0

/-! Specification-side streak counting: `chainAux s f c` counts, with fuel
`f`, how many consecutive days `c, c-1, c-2, …` all appear in `s`. -/

def chainAux (s : List Int) : Nat → Int → Nat
  | 0, _ => 0
  | f + 1, c => if c ∈ s then chainAux s f (c - 1) + 1 else 0

/-- Number of consecutive calendar days `c, c-1, …` logged in `s`
(the fuel `s.length` always suffices; see `chainAux_stable`). -/
def chainFrom (s : List Int) (c : Int) : Nat := chainAux s s.length c

/-- The claim's streak description: the count of consecutive days ending at
`today`, or — when today is absent but yesterday present (one-day grace) —
ending at yesterday; 0 (omitted) otherwise. -/
def specStreak (s : List Int) (today : Int) : Nat :=
  if today ∈ s then chainFrom s today
  else if today - 1 ∈ s then chainFrom s (today - 1)
  else 0

/-! ## Weekly progress (`AnalyticsService.check_weekly_progress`) -/

/-- `models/habit.py` `HabitGoal` value (dict of `habit_goals`). -/
structure WeeklyGoal where
  targetPerWeek : Int
  created : DateTime
  category : String
deriving Repr, DecidableEq

/-- Monday 00:00:00 of the week of `now`
(`today - timedelta(days=today.weekday())`, time zeroed). -/
def weekStart (now : DateTime) : DateTime := ⟨now.day - now.day % 7, 0⟩

/-- One `weekly_counts[habit] = weekly_counts.get(habit, 0) + 1` update. -/
def bumpCount (m : String → Nat) (h : String) : String → Nat :=
  fun k => if k = h then m h + 1 else m k

/-- One iteration of the source's `weekly_counts` loop. -/
def weeklyStep (ws : DateTime) (m : String → Nat) (e : HabitEvent) : String → Nat :=
  if e.type == "log" then
    match e.time with
    | some dt => if dtLe ws dt then bumpCount m e.habit else m
    | none => m
  else m

/-- The `weekly_counts` dict built by the source's loop, as a function. -/
def weeklyCounts (logs : List HabitEvent) (ws : DateTime) : String → Nat :=
  logs.foldl (weeklyStep ws) (fun _ => 0)

structure ProgressEntry where
  completed : Nat
  target : Int
  percentage : ℚ
  status : String
deriving Repr, DecidableEq

/-- One entry of the returned progress dict. -/
def progressEntry (completed : Nat) (target : Int) : ProgressEntry :=
  { completed := completed
    target := target
    percentage := if 0 < target then min 100 ((completed : ℚ) / (target : ℚ) * 100) else 0
    status := if target ≤ (completed : Int) then "completed"
              else if 0 < completed then "in_progress" else "not_started" }

/-- Embedding of `AnalyticsService.check_weekly_progress`; the goals dict is a key-value
list, the result dict the corresponding keyed list. -/
def checkWeeklyProgress (logs : List HabitEvent) (goals : List (String × WeeklyGoal))
    (now : DateTime) : List (String × ProgressEntry) :=
  if goals = [] then []
  else
    goals.map fun hg =>
      (hg.1, progressEntry (weeklyCounts logs (weekStart now) hg.1) hg.2.targetPerWeek)

/-! ## Confirmation gate and action executor (`services/habit_service.py`) -/

/-- Embedding of `st.session_state.pending_action`. -/
structure PendingAction where
  habit : String
  duration : String
  actionText : String
  actionType : String
  user : String
  timestamp : ℚ
deriving Repr, DecidableEq

/-- The mutable per-user state touched by the executor. -/
structure ExecState where
  logs : List HabitEvent
  goals : String → Option WeeklyGoal

/-- Result messages surfaced by `_execute_confirmed_action`
(`st.success` / `st.info` / `st.warning`). -/
inductive ExecMsg where
  | logged (text : String)
  | added (habit : String) (defaultGoalSet : Bool)
  | alreadyExists (habit : String)
  | deleted (habit : String) (removedCount : Nat)
  | warnNoEntries (habit : String)
  | noop
deriving Repr, DecidableEq

/-- Embedding of `utils/helpers.py` `get_habit_category`. -/
def getHabitCategory (habit : String) : String :=
  match HABIT_CATEGORIES.find? (fun cg => habit ∈ cg.2) with
  | some cg => cg.1
  | none => "🔄 Other"

/-- Embedding of `HabitService.set_habit_goal`. -/
def setHabitGoal (s : ExecState) (habit : String) (target : Int) (now : DateTime) : ExecState :=
  { s with goals := fun k =>
      if k = habit then some ⟨target, now, getHabitCategory habit⟩ else s.goals k }

/-- Confirmation text built by `_handle_habit_confirmation`. -/
def actionTextFor (actionType habit duration : String) : String :=
  if actionType = "log" then
    (if duration = "" then "Completed " ++ habit
     else "Completed " ++ habit ++ " for " ++ duration)
  else if actionType = "add" then "Add " ++ habit ++ " to your habits"
  else if actionType = "delete" then "Delete " ++ habit ++ " and all its logs"
  else actionType ++ " " ++ habit

/-- Embedding of `HabitService._execute_confirmed_action`, acting on a pending action. -/
def executeConfirmedAction (p : PendingAction) (s : ExecState) (now : DateTime) :
    ExecState × ExecMsg :=
  if p.actionType = "log" then
    let text := if p.duration = "" then "Completed " ++ p.habit
                else "Completed " ++ p.habit ++ " for " ++ p.duration
    ({ s with logs := s.logs ++ [⟨p.habit, text, some now, "log", p.duration⟩] },
     ExecMsg.logged text)
  else if p.actionType = "add" then
    (if p.habit ∈ s.logs.map HabitEvent.habit then (s, ExecMsg.alreadyExists p.habit)
     else
       let s1 : ExecState :=
         { s with logs := s.logs ++ [⟨p.habit, "Added habit: " ++ p.habit, some now, "add", ""⟩] }
       match (DEFAULT_GOALS.lookup p.habit) with
       | some t => (setHabitGoal s1 p.habit t now, ExecMsg.added p.habit true)
       | none => (s1, ExecMsg.added p.habit false))
  else if p.actionType = "delete" then
    let logs2 := s.logs.filter (fun e => e.habit != p.habit)
    let removed := s.logs.length - logs2.length
    (if 0 < removed then
       ({ logs := logs2, goals := fun k => if k = p.habit then none else s.goals k },
        ExecMsg.deleted p.habit removed)
     else ({ s with logs := logs2 }, ExecMsg.warnNoEntries p.habit))
  else (s, ExecMsg.noop)

/-- Outcome of `HabitService.handle_habit_action` for one interpreted
command (which branch of the source runs, and with what data). -/
inductive HandleOut where
  | dashboardOut
  | goalSet (habit : String) (target : Int)
  | goalWarn
  | routed (intent : String)
  | noHabits
  | confirmPending (p : PendingAction)
  | queried (habit : String)
  | noop
deriving Repr, DecidableEq

/-- The pending action `_handle_habit_confirmation` records for a
confirmable command. -/
def mkPendingFor (cmd : VoiceCommand) (user : String) (nowTs : ℚ) : PendingAction :=
  { habit := cmd.habits.headD ""
    duration := cmd.duration
    actionText := actionTextFor cmd.intent (cmd.habits.headD "") cmd.duration
    actionType := cmd.intent
    user := user
    timestamp := nowTs }

/-- Embedding of `HabitService.handle_habit_action`. -/
def handleHabitAction (cmd : VoiceCommand) (user : String) (nowTs : ℚ) : HandleOut :=
  if cmd.intent = "dashboard" then HandleOut.dashboardOut
  else if cmd.intent = "set_goal" then
    (match cmd.habits with
     | h :: _ => if 0 < cmd.target then HandleOut.goalSet h cmd.target else HandleOut.goalWarn
     | [] => HandleOut.goalWarn)
  else if cmd.intent ∈ ["streak_query", "progress_query", "help", "export", "confirm", "cancel"] then
    HandleOut.routed cmd.intent
  else
    match cmd.habits with
    | [] => HandleOut.noHabits
    | h :: _ =>
      if cmd.intent ∈ ["add", "log", "delete"] then
        HandleOut.confirmPending (mkPendingFor cmd user nowTs)
      else if cmd.intent = "query" then HandleOut.queried h
      else HandleOut.noop

/-! ## Session timeout (`utils/helpers.py` `check_session_timeout`) -/

/-- Embedding of `check_session_timeout`: clears a pending action strictly older than 300
seconds and reports `True`; otherwise leaves state untouched and reports
`False`.  It never invokes the action executor. -/
def checkSessionTimeout (now : ℚ) (pending : Option PendingAction) :
    Option PendingAction × Bool :=
  match pending with
  | some p => if now - p.timestamp > 300 then (none, true) else (some p, false)
  | none => (none, false)

/-! ## Streak lemmas: the backward walk computes `specStreak` -/

theorem chainAux_congr_mem {s t : List Int} (h : ∀ x : Int, x ∈ s ↔ x ∈ t) :
    ∀ f c, chainAux s f c = chainAux t f c := by
  intro f
  induction f with
  | zero => intro c; rfl
  | succ f ih =>
    intro c
    simp only [chainAux]
    by_cases hc : c ∈ s
    · rw [if_pos hc, if_pos ((h c).mp hc), ih]
    · rw [if_neg hc, if_neg (fun hct => hc ((h c).mpr hct))]

theorem chainAux_not_mem {s : List Int} {c : Int} (h : c ∉ s) :
    ∀ f, chainAux s f c = 0 := by
  intro f
  cases f with
  | zero => rfl
  | succ f => simp only [chainAux, if_neg h]

/-- Unfolding equation for `chainAux` at positive fuel. -/
theorem chainAux_succ (s : List Int) (f : Nat) (c : Int) :
    chainAux s (f + 1) c = if c ∈ s then chainAux s f (c - 1) + 1 else 0 := rfl

/-- Count of elements `≤ c`, the fuel bound that makes `chainAux` stable. -/
def cntLe (s : List Int) (c : Int) : Nat := s.countP (fun x => decide (x ≤ c))

theorem cntLe_cons (a : Int) (s : List Int) (c : Int) :
    cntLe (a :: s) c = cntLe s c + (if a ≤ c then 1 else 0) := by
  simp only [cntLe, List.countP_cons]
  by_cases ha : a ≤ c <;> simp [ha]

theorem cntLe_mono (s : List Int) {c d : Int} (h : c ≤ d) : cntLe s c ≤ cntLe s d := by
  induction s with
  | nil => simp [cntLe]
  | cons a r ih =>
    rw [cntLe_cons, cntLe_cons]
    by_cases ha : a ≤ c
    · have had : a ≤ d := le_trans ha h
      simp only [if_pos ha, if_pos had]
      omega
    · by_cases had : a ≤ d
      · simp only [if_neg ha, if_pos had]
        omega
      · simp only [if_neg ha, if_neg had]
        omega

theorem cntLe_lt_of_mem {s : List Int} {c : Int} (h : c ∈ s) :
    cntLe s (c - 1) < cntLe s c := by
  induction s with
  | nil => cases h
  | cons a r ih =>
    rw [cntLe_cons, cntLe_cons]
    rcases List.mem_cons.mp h with h1 | hmem
    · have hn : ¬ (a ≤ c - 1) := by omega
      have hy : a ≤ c := le_of_eq h1.symm
      have := cntLe_mono r (show c - 1 ≤ c by omega)
      simp only [if_pos hy, if_neg hn]
      omega
    · have := ih hmem
      by_cases ha : a ≤ c - 1
      · have hy : a ≤ c := by omega
        simp only [if_pos ha, if_pos hy]
        omega
      · by_cases hy : a ≤ c
        · simp only [if_neg ha, if_pos hy]
          omega
        · simp only [if_neg ha, if_neg hy]
          omega

theorem cntLe_pos_of_mem {s : List Int} {c : Int} (h : c ∈ s) : 0 < cntLe s c :=
  List.countP_pos_iff.mpr ⟨c, h, by simp⟩

theorem chainAux_step {s : List Int} :
    ∀ f c, cntLe s c ≤ f → chainAux s f c = chainAux s (f + 1) c := by
  intro f
  induction f with
  | zero =>
    intro c h
    have hc : c ∉ s := fun hmem => by have := cntLe_pos_of_mem hmem; omega
    rw [chainAux, chainAux_succ, if_neg hc]
  | succ f ih =>
    intro c h
    rw [chainAux_succ, chainAux_succ]
    by_cases hc : c ∈ s
    · rw [if_pos hc, if_pos hc]
      have hlt := cntLe_lt_of_mem hc
      rw [ih (c - 1) (by omega)]
    · rw [if_neg hc, if_neg hc]

theorem chainAux_of_le {s : List Int} {c : Int} :
    ∀ f, cntLe s c ≤ f → chainAux s f c = chainAux s (cntLe s c) c := by
  intro f
  induction f with
  | zero =>
    intro h
    have : cntLe s c = 0 := by omega
    rw [this]
  | succ f ih =>
    intro h
    rcases Nat.lt_or_ge (cntLe s c) (f + 1) with hlt | hge
    · have hle : cntLe s c ≤ f := by omega
      rw [← chainAux_step f c hle, ih hle]
    · have : cntLe s c = f + 1 := by omega
      rw [this]

theorem cntLe_le_length (s : List Int) (c : Int) : cntLe s c ≤ s.length :=
  List.countP_le_length _

/-- Any fuel at least `cntLe s c` computes `chainFrom`. -/
theorem chainAux_eq_of_cnt {s : List Int} {c : Int} {f : Nat} (h : cntLe s c ≤ f) :
    chainAux s f c = chainFrom s c := by
  rw [chainFrom, chainAux_of_le f h, chainAux_of_le s.length (cntLe_le_length s c)]

theorem chainAux_eq_chainFrom {s : List Int} {c : Int} {f : Nat} (h : s.length ≤ f) :
    chainAux s f c = chainFrom s c :=
  chainAux_eq_of_cnt (le_trans (cntLe_le_length s c) h)

theorem chainFrom_congr_mem {s t : List Int} (h : ∀ x : Int, x ∈ s ↔ x ∈ t) (c : Int) :
    chainFrom s c = chainFrom t c := by
  rw [← chainAux_eq_chainFrom (le_max_left s.length t.length),
      ← chainAux_eq_chainFrom (le_max_right s.length t.length) (c := c),
      chainAux_congr_mem h]

theorem chainAux_cons_of_lt {d : Int} {rest : List Int} :
    ∀ f (e : Int), e < d → chainAux (d :: rest) f e = chainAux rest f e := by
  intro f
  induction f with
  | zero => intro e _; rfl
  | succ f ih =>
    intro e he
    simp only [chainAux]
    have hmem : e ∈ d :: rest ↔ e ∈ rest := by
      simp only [List.mem_cons]
      constructor
      · rintro (rfl | h)
        · omega
        · exact h
      · exact Or.inr
    by_cases hc : e ∈ rest
    · rw [if_pos (hmem.mpr hc), if_pos hc, ih (e - 1) (by omega)]
    · rw [if_neg (fun hx => hc (hmem.mp hx)), if_neg hc]

theorem chainFrom_cons_of_lt {d : Int} {rest : List Int} {e : Int} (he : e < d) :
    chainFrom (d :: rest) e = chainFrom rest e := by
  rw [chainFrom, List.length_cons, chainAux_cons_of_lt (rest.length + 1) e he,
      chainAux_eq_chainFrom (Nat.le_succ _)]

theorem chainFrom_mem {s : List Int} {c : Int} (h : c ∈ s) :
    chainFrom s c = chainFrom s (c - 1) + 1 := by
  obtain ⟨n, hn⟩ : ∃ n, s.length = n + 1 := by
    cases s with
    | nil => cases h
    | cons a r => exact ⟨r.length, rfl⟩
  have hcnt : cntLe s (c - 1) ≤ n := by
    have h1 := cntLe_lt_of_mem h
    have h2 := cntLe_le_length s c
    omega
  rw [chainFrom, hn, chainAux_succ, if_pos h, chainAux_eq_of_cnt hcnt]

theorem chainFrom_not_mem {s : List Int} {c : Int} (h : c ∉ s) : chainFrom s c = 0 :=
  chainAux_not_mem h _

theorem specStreak_congr_mem {s t : List Int} (h : ∀ x : Int, x ∈ s ↔ x ∈ t) (c : Int) :
    specStreak s c = specStreak t c := by
  simp only [specStreak]
  by_cases h1 : c ∈ s
  · rw [if_pos h1, if_pos ((h c).mp h1), chainFrom_congr_mem h]
  · rw [if_neg h1, if_neg (fun hx => h1 ((h c).mpr hx))]
    by_cases h2 : c - 1 ∈ s
    · rw [if_pos h2, if_pos ((h _).mp h2), chainFrom_congr_mem h]
    · rw [if_neg h2, if_neg (fun hx => h2 ((h _).mpr hx))]

theorem streakWalk_pos {s : List Int} (hs : List.Pairwise (· > ·) s) :
    ∀ (c : Int) (k : Nat), streakWalk s c (k + 1) = (k + 1) + chainFrom s c := by
  induction s with
  | nil =>
    intro c k
    simp [streakWalk, chainFrom, chainAux]
  | cons d rest ih =>
    have hd : ∀ x ∈ rest, d > x := (List.pairwise_cons.mp hs).1
    have hrest := (List.pairwise_cons.mp hs).2
    intro c k
    simp only [streakWalk]
    by_cases h1 : d = c
    · subst h1
      rw [if_pos rfl, ih hrest (d - 1) (k + 1),
          chainFrom_mem (List.mem_cons_self d rest), chainFrom_cons_of_lt (by omega)]
      omega
    · rw [if_neg h1]
      by_cases h2 : d < c
      · rw [if_pos h2, if_neg (by omega)]
        have hc : c ∉ d :: rest := by
          intro hx
          rcases List.mem_cons.mp hx with rfl | hx
          · omega
          · have := hd c hx; omega
        rw [chainFrom_not_mem hc]
      · rw [if_neg h2, ih hrest c k, chainFrom_cons_of_lt (by omega)]

theorem streakWalk_zero {s : List Int} (hs : List.Pairwise (· > ·) s) :
    ∀ c : Int, streakWalk s c 0 = specStreak s c := by
  induction s with
  | nil =>
    intro c
    simp [streakWalk, specStreak]
  | cons d rest ih =>
    have hd : ∀ x ∈ rest, d > x := (List.pairwise_cons.mp hs).1
    have hrest := (List.pairwise_cons.mp hs).2
    intro c
    simp only [streakWalk]
    by_cases h1 : d = c
    · subst h1
      rw [if_pos rfl, streakWalk_pos hrest (d - 1) 0, specStreak,
          if_pos (List.mem_cons_self d rest),
          chainFrom_mem (List.mem_cons_self d rest), chainFrom_cons_of_lt (by omega)]
      omega
    · rw [if_neg h1]
      by_cases h2 : d < c
      · rw [if_pos h2]
        have hcnot : c ∉ d :: rest := by
          intro hx
          rcases List.mem_cons.mp hx with rfl | hx
          · omega
          · have := hd c hx; omega
        by_cases h3 : c - d = 1
        · rw [if_pos ⟨h3, trivial⟩, streakWalk_pos hrest (d - 1) 0, specStreak,
              if_neg hcnot]
          have hdm : c - 1 = d := by omega
          rw [hdm, if_pos (List.mem_cons_self d rest),
              chainFrom_mem (List.mem_cons_self d rest), chainFrom_cons_of_lt (by omega)]
          omega
        · rw [if_neg (fun hx => h3 hx.1), specStreak, if_neg hcnot]
          have hc1not : c - 1 ∉ d :: rest := by
            intro hx
            rcases List.mem_cons.mp hx with hx | hx
            · omega
            · have := hd (c - 1) hx; omega
          rw [if_neg hc1not]
      · rw [if_neg h2, ih hrest c]
        have hdc : c < d := by omega
        simp only [specStreak]
        have hmc : c ∈ d :: rest ↔ c ∈ rest := by
          simp only [List.mem_cons]
          constructor
          · rintro (rfl | h)
            · omega
            · exact h
          · exact Or.inr
        have hmc1 : c - 1 ∈ d :: rest ↔ c - 1 ∈ rest := by
          simp only [List.mem_cons]
          constructor
          · rintro (h | h)
            · omega
            · exact h
          · exact Or.inr
        by_cases hc : c ∈ rest
        · rw [if_pos hc, if_pos (hmc.mpr hc), chainFrom_cons_of_lt hdc]
        · rw [if_neg hc, if_neg (fun hx => hc (hmc.mp hx))]
          by_cases hc1 : c - 1 ∈ rest
          · rw [if_pos hc1, if_pos (hmc1.mpr hc1), chainFrom_cons_of_lt (by omega)]
          · rw [if_neg hc1, if_neg (fun hx => hc1 (hmc1.mp hx))]

/-- The source's `calculate_streaks` walk equals the specification streak
count over the logged dates of the habit. -/
theorem calcStreaks_spec (logs : List HabitEvent) (today : Int) (habit : String) :
    calculateStreaks logs today habit = specStreak (habitLogDates logs habit) today := by
  set s := habitLogDates logs habit with hs
  set t := List.insertionSort (· ≥ ·) s.dedup with ht
  have hperm : List.Perm t s.dedup := List.perm_insertionSort _ _
  have hsorted : List.Pairwise (· ≥ ·) t := List.sorted_insertionSort _ _
  have hnodup : t.Nodup := hperm.nodup_iff.mpr s.nodup_dedup
  have hgt : List.Pairwise (· > ·) t := by
    have hand := List.Pairwise.and hsorted hnodup
    exact hand.imp (fun hab => lt_of_le_of_ne hab.1 (Ne.symm hab.2))
  have hmem : ∀ x : Int, x ∈ t ↔ x ∈ s := by
    intro x
    rw [hperm.mem_iff, List.mem_dedup]
  rw [calculateStreaks, ← hs, ← ht, streakWalk_zero hgt, specStreak_congr_mem hmem]

/-- C3.  The general walk/spec equivalence together with the claim's three
concrete instances (day 0 = 2024-01-01, a Monday; so 2024-01-03 is day 2). -/
theorem C3_current_streaks_consecutive_days :
    (∀ (logs : List HabitEvent) (today : Int) (habit : String),
        calculateStreaks logs today habit = specStreak (habitLogDates logs habit) today) ∧
    calculateStreaks
      [⟨"reading", "Completed reading", some ⟨0, 0⟩, "log", ""⟩,
       ⟨"reading", "Completed reading", some ⟨1, 0⟩, "log", ""⟩,
       ⟨"reading", "Completed reading", some ⟨2, 0⟩, "log", ""⟩] 2 "reading" = 3 ∧
    calculateStreaks
      [⟨"reading", "Completed reading", some ⟨0, 0⟩, "log", ""⟩,
       ⟨"reading", "Completed reading", some ⟨2, 0⟩, "log", ""⟩] 2 "reading" = 1 ∧
    calculateStreaks
      [⟨"reading", "Completed reading", some ⟨1, 0⟩, "log", ""⟩] 2 "reading" = 1 :=
  ⟨calcStreaks_spec, by decide, by decide, by decide⟩

/-- C7.  `calculate_streaks` depends only on the `log`-type subset of the
event list (up to permutation) and the "today" reference. -/
theorem C7_streaks_depend_only_on_log_subset
    (l1 l2 : List HabitEvent) (today : Int) (habit : String)
    (hperm : List.Perm (l1.filter (fun e => e.type == "log"))
                       (l2.filter (fun e => e.type == "log"))) :
    calculateStreaks l1 today habit = calculateStreaks l2 today habit := by
  rw [calcStreaks_spec, calcStreaks_spec]
  apply specStreak_congr_mem
  intro x
  have hp : List.Perm (habitLogDates l1 habit) (habitLogDates l2 habit) := by
    unfold habitLogDates
    exact ((hperm.filter (fun e => e.habit == habit)).filterMap
      (fun e => e.time.map DateTime.day))
  exact hp.mem_iff

/-- Witness for C7 at a concrete pair of event lists: an interleaved `add`
event does not affect the computed streak. -/
theorem C7_streaks_depend_only_on_log_subset_witness :
    calculateStreaks
      [⟨"workout", "Added habit: workout", some ⟨2, 0⟩, "add", ""⟩,
       ⟨"reading", "Completed reading", some ⟨2, 0⟩, "log", ""⟩] 2 "reading" =
    calculateStreaks
      [⟨"reading", "Completed reading", some ⟨2, 0⟩, "log", ""⟩] 2 "reading" :=
  C7_streaks_depend_only_on_log_subset _ _ 2 "reading" (by decide)

/-! ## Weekly-progress lemmas -/

/-- Specification-side weekly count: the number of `log`-type events of the
habit whose (parseable) timestamp is at or after the week start. -/
def specWeeklyCount (logs : List HabitEvent) (ws : DateTime) (h : String) : Nat :=
  (logs.filter (fun e => e.type == "log" && e.habit == h &&
      (match e.time with
       | some dt => dtLe ws dt
       | none => false))).length

theorem weeklyCounts_aux (ws : DateTime) (h : String) :
    ∀ (logs : List HabitEvent) (m : String → Nat),
      (logs.foldl (weeklyStep ws) m) h = m h + specWeeklyCount logs ws h := by
  intro logs
  induction logs with
  | nil => intro m; simp [specWeeklyCount]
  | cons e rest ih =>
    intro m
    simp only [List.foldl_cons]
    rw [ih (weeklyStep ws m e)]
    by_cases ht : (e.type == "log") = true
    · cases hdt : e.time with
      | none =>
        have hstep : weeklyStep ws m e = m := by
          simp [weeklyStep, ht, hdt]
        rw [hstep]
        simp [specWeeklyCount, List.filter_cons, ht, hdt]
      | some dt =>
        by_cases hle : (dtLe ws dt) = true
        · have hstep : weeklyStep ws m e = bumpCount m e.habit := by
            simp [weeklyStep, ht, hdt, hle]
          rw [hstep]
          by_cases hh : e.habit = h
          · subst hh
            have hfc : specWeeklyCount (e :: rest) ws e.habit =
                specWeeklyCount rest ws e.habit + 1 := by
              simp [specWeeklyCount, List.filter_cons, ht, hdt, hle]
            rw [hfc]
            simp [bumpCount]
            omega
          · have hb : (e.habit == h) = false := beq_eq_false_iff_ne.mpr hh
            have hfc : specWeeklyCount (e :: rest) ws h = specWeeklyCount rest ws h := by
              simp [specWeeklyCount, List.filter_cons, hb]
            rw [hfc]
            simp only [bumpCount]
            rw [if_neg (fun hx => hh hx.symm)]
        · have hstep : weeklyStep ws m e = m := by
            simp only [weeklyStep, ht, if_pos, hdt]
            rw [if_neg hle]
          rw [hstep]
          have hlef : (dtLe ws dt) = false := by
            cases hx : dtLe ws dt
            · rfl
            · exact absurd hx hle
          simp [specWeeklyCount, List.filter_cons, ht, hdt, hlef]
    · have hstep : weeklyStep ws m e = m := by
        simp only [weeklyStep]
        rw [if_neg ht]
      rw [hstep]
      have htf : (e.type == "log") = false := by
        cases hx : e.type == "log"
        · rfl
        · exact absurd hx ht
      simp [specWeeklyCount, List.filter_cons, htf]

theorem weeklyCounts_eq (logs : List HabitEvent) (ws : DateTime) (h : String) :
    weeklyCounts logs ws h = specWeeklyCount logs ws h := by
  rw [weeklyCounts, weeklyCounts_aux ws h logs (fun _ => 0)]
  omega

/-- Claim-side progress entry: `percentage = min(100, 100*completed/target)`
(0 if `target ≤ 0`); `status` = `completed` if `completed ≥ target`, else
`in_progress` if `completed > 0`, else `not_started`. -/
def specProgressEntry (c : Nat) (t : Int) : ProgressEntry :=
  { completed := c,
    target := t,
    percentage := if t ≤ 0 then 0 else min 100 (100 * (c : ℚ) / (t : ℚ)),
    status := if t ≤ (c : Int) then "completed"
              else if 0 < c then "in_progress"
              else "not_started" }

theorem progressEntry_eq_spec (c : Nat) (t : Int) :
    progressEntry c t = specProgressEntry c t := by
  have hp : (if 0 < t then min 100 ((c : ℚ) / (t : ℚ) * 100) else 0) =
      (if t ≤ 0 then 0 else min 100 (100 * (c : ℚ) / (t : ℚ))) := by
    by_cases hpos : 0 < t
    · rw [if_pos hpos, if_neg (by omega)]
      congr 1
      ring
    · rw [if_neg hpos, if_pos (by omega)]
  simp only [progressEntry, specProgressEntry, hp]

/-- C4.  `check_weekly_progress` returns, for each habit with a goal, the
count of its `log` events timestamped at or after Monday 00:00:00 of the
current week (events timestamped before the boundary never count, by the
`specWeeklyCount` predicate), with the claimed percentage and status
formulas. -/
theorem C4_weekly_progress_boundary_and_formulas
    (logs : List HabitEvent) (goals : List (String × WeeklyGoal)) (now : DateTime) :
    checkWeeklyProgress logs goals now =
      goals.map (fun hg =>
        (hg.1, specProgressEntry (specWeeklyCount logs (weekStart now) hg.1)
          hg.2.targetPerWeek)) := by
  rw [checkWeeklyProgress]
  by_cases hg : goals = []
  · subst hg; simp
  · rw [if_neg hg]
    apply List.map_congr_left
    intro hgpair _
    rw [weeklyCounts_eq, progressEntry_eq_spec]

/-! ## Captured groups of the embedded regexes consist of `\\w`/`\\d` characters -/

/-- Every character of a captured group is a word character or a digit. -/
def grpOk (g : List Char) : Prop := ∀ c ∈ g, isWordChar c = true ∨ c.isDigit = true

theorem mtch_groups :
    ∀ (ts : List Tok) (s : List Char) (gs : List (List Char))
      (res : List (List Char) × List Char),
      mtch ts s gs = some res → (∀ g ∈ gs, grpOk g) → ∀ g ∈ res.1, grpOk g := by
  intro ts
  induction ts with
  | nil =>
    intro s gs res hm hgs
    simp only [mtch] at hm
    injection hm with hm
    subst hm
    exact hgs
  | cons tok ts ih =>
    intro s gs res hm hgs
    cases tok with
    | lit l =>
      simp only [mtch] at hm
      split at hm
      · exact ih _ _ _ hm hgs
      · cases hm
    | optLit l =>
      simp only [mtch] at hm
      rcases ho : (match dropLit l s with
                   | some s2 => mtch ts s2 gs
                   | none => none) with _ | r
      · rw [ho, Option.none_orElse] at hm
        exact ih _ _ _ hm hgs
      · rw [ho, Option.some_orElse] at hm
        injection hm with hm
        subst hm
        split at ho
        · exact ih _ _ _ ho hgs
        · cases ho
    | altLit ls =>
      simp only [mtch] at hm
      obtain ⟨l, _, hf⟩ := List.exists_of_findSome?_eq_some hm
      split at hf
      · exact ih _ _ _ hf hgs
      · cases hf
    | wordGrp =>
      simp only [mtch] at hm
      obtain ⟨pr, hpr, hf⟩ := List.exists_of_findSome?_eq_some hm
      split at hf
      · cases hf
      · refine ih _ _ _ hf ?_
        intro g hg
        rcases List.mem_append.mp hg with hg | hg
        · exact hgs g hg
        · have hge : g = pr.1 := by simpa using hg
          subst hge
          intro ch hch
          left
          simp only [splitsDesc] at hpr
          obtain ⟨k, _, hkeq⟩ := List.mem_map.mp hpr
          have hch2 : ch ∈ (s.takeWhile isWordChar).take k := by
            rw [← hkeq] at hch
            exact hch
          exact List.mem_takeWhile_imp (List.take_subset k _ hch2)
    | digitGrp =>
      simp only [mtch] at hm
      obtain ⟨pr, hpr, hf⟩ := List.exists_of_findSome?_eq_some hm
      split at hf
      · cases hf
      · refine ih _ _ _ hf ?_
        intro g hg
        rcases List.mem_append.mp hg with hg | hg
        · exact hgs g hg
        · have hge : g = pr.1 := by simpa using hg
          subst hge
          intro ch hch
          right
          simp only [splitsDesc] at hpr
          obtain ⟨k, _, hkeq⟩ := List.mem_map.mp hpr
          have hch2 : ch ∈ (s.takeWhile Char.isDigit).take k := by
            rw [← hkeq] at hch
            exact hch
          exact List.mem_takeWhile_imp (List.take_subset k _ hch2)
    | wsStar =>
      simp only [mtch] at hm
      obtain ⟨pr, _, hf⟩ := List.exists_of_findSome?_eq_some hm
      exact ih _ _ _ hf hgs

theorem reSearch_groups (p : List Tok) :
    ∀ (s : List Char) (res : List (List Char) × List Char),
      reSearch p s = some res → ∀ g ∈ res.1, grpOk g := by
  intro s
  induction s with
  | nil =>
    intro res hm
    simp only [reSearch] at hm
    split at hm
    · next gs rest heq =>
        injection hm with hm
        subst hm
        exact mtch_groups p [] [] (gs, rest) heq (by intro g hg; cases hg)
    · cases hm
  | cons c t ihs =>
    intro res hm
    simp only [reSearch] at hm
    split at hm
    · next gs rest heq =>
        injection hm with hm
        subst hm
        exact mtch_groups p (c :: t) [] (gs, rest) heq (by intro g hg; cases hg)
    · exact ihs res hm

/-- Any command produced by the `GOAL_PATTERNS` step is a `set_goal` on a
single taxonomy habit whose characters are all `\\w`/`\\d` characters. -/
theorem goalStep_habit_chars {t : List Char} {c : VoiceCommand}
    (h : goalStep t = some c) :
    c.intent = "set_goal" ∧
      ∃ hb : String, c.habits = [hb] ∧ hb ∈ COMMON_HABITS ∧ grpOk hb.data := by
  unfold goalStep at h
  obtain ⟨pat, hpat, hf⟩ := List.exists_of_findSome?_eq_some h
  split at hf
  · next h0 n0 sp heq =>
      by_cases hmem : (⟨h0⟩ : String) ∈ COMMON_HABITS
      · rw [if_pos hmem] at hf
        injection hf with hf
        subst hf
        refine ⟨rfl, ⟨h0⟩, rfl, hmem, ?_⟩
        exact reSearch_groups pat t ([h0, n0], sp) heq h0 (by simp)
      · rw [if_neg hmem] at hf
        cases hf
  · cases hf

/-- C10.  Every goal pattern captures the habit as a single `\\w+` token, so
the step-1 goal extraction never yields `set_goal` for a multi-word taxonomy
habit; such phrasings fall through (`goalStep` does not return them). -/
theorem C10_goal_patterns_never_multiword (t : List Char) (c : VoiceCommand)
    (h : goalStep t = some c) :
    ∀ hb ∈ c.habits, (∀ ch ∈ hb.data, ch ≠ ' ') ∧
      hb ≠ "drinking water" ∧ hb ≠ "sleep early" ∧
      hb ≠ "learning english" ∧ hb ≠ "calling family" := by
  obtain ⟨_, hb0, hhb, _, hok⟩ := goalStep_habit_chars h
  intro hb hbm
  rw [hhb] at hbm
  have hbe : hb = hb0 := by simpa using hbm
  subst hbe
  have hns : ∀ ch ∈ hb.data, ch ≠ ' ' := by
    intro ch hch hsp
    rcases hok ch hch with hw | hdg
    · rw [hsp] at hw
      exact absurd hw (by decide)
    · rw [hsp] at hdg
      exact absurd hdg (by decide)
  refine ⟨hns, ?_, ?_, ?_, ?_⟩ <;> intro heq
  · subst heq
    exact hns ' ' (by decide) rfl
  · subst heq
    exact hns ' ' (by decide) rfl
  · subst heq
    exact hns ' ' (by decide) rfl
  · subst heq
    exact hns ' ' (by decide) rfl

/-- Witness for C10 at a concrete goal phrasing that does match step 1. -/
theorem C10_goal_patterns_never_multiword_witness :
    (∀ ch ∈ ("reading" : String).data, ch ≠ ' ') ∧
    ("reading" : String) ≠ "drinking water" ∧ ("reading" : String) ≠ "sleep early" ∧
    ("reading" : String) ≠ "learning english" ∧ ("reading" : String) ≠ "calling family" :=
  C10_goal_patterns_never_multiword "set goal for reading 5 times per week".data
    ⟨"set_goal", ["reading"], "", 5⟩ (by decide) "reading" (by decide)

/-! ## Interpreter output invariants -/

theorem sanitize_sub (hs : List String) :
    ∀ h ∈ sanitizeHabits hs, h ∈ COMMON_HABITS := by
  intro h hmem
  unfold sanitizeHabits at hmem
  exact of_decide_eq_true (List.mem_filter.mp hmem).2

/-- Every command the deterministic enhanced steps return has an enum intent
and taxonomy-only habits. -/
theorem enhancedCore_intent_habits {t : List Char} {c : VoiceCommand}
    (h : enhancedCore t = some c) :
    c.intent ∈ INTENT_ENUM ∧ ∀ hb ∈ c.habits, hb ∈ COMMON_HABITS := by
  unfold enhancedCore at h
  cases hg : goalStep t with
  | some c0 =>
    rw [hg] at h
    injection h with h
    subst h
    obtain ⟨hi, hb0, hhb, hmem, _⟩ := goalStep_habit_chars hg
    refine ⟨by rw [hi]; decide, ?_⟩
    intro hb hbm
    rw [hhb] at hbm
    have : hb = hb0 := by simpa using hbm
    subst this
    exact hmem
  | none =>
    rw [hg] at h
    by_cases h1 : anyKw STREAK_KEYWORDS t = true
    · rw [if_pos h1] at h
      cases hf : COMMON_HABITS.find? (fun hb => hasSub hb.data t) with
      | some hb0 =>
        rw [hf] at h
        have hc : c = ⟨"streak_query", [hb0], "", 0⟩ := by
          injection h with h
          exact h.symm
        rw [hc]
        refine ⟨by show "streak_query" ∈ INTENT_ENUM; decide, ?_⟩
        intro hb hbm
        have : hb = hb0 := by simpa using hbm
        subst this
        exact List.mem_of_find?_eq_some hf
      | none =>
        rw [hf] at h
        injection h with h
        subst h
        exact ⟨by decide, by intro hb hbm; cases hbm⟩
    · rw [if_neg h1] at h
      by_cases h2 : anyKw PROGRESS_KEYWORDS t = true
      · rw [if_pos h2] at h
        injection h with h
        subst h
        exact ⟨by decide, by intro hb hbm; cases hbm⟩
      · rw [if_neg h2] at h
        by_cases h3 : anyKw DASHBOARD_KEYWORDS t = true
        · rw [if_pos h3] at h
          injection h with h
          subst h
          exact ⟨by decide, by intro hb hbm; cases hbm⟩
        · rw [if_neg h3] at h
          by_cases h4 : anyKw CONFIRM_WORDS t = true
          · rw [if_pos h4] at h
            injection h with h
            subst h
            exact ⟨by decide, by intro hb hbm; cases hbm⟩
          · rw [if_neg h4] at h
            by_cases h5 : anyKw CANCEL_WORDS t = true
            · rw [if_pos h5] at h
              injection h with h
              subst h
              exact ⟨by decide, by intro hb hbm; cases hbm⟩
            · rw [if_neg h5] at h
              by_cases h6 : anyKw HELP_WORDS t = true
              · rw [if_pos h6] at h
                injection h with h
                subst h
                exact ⟨by decide, by intro hb hbm; cases hbm⟩
              · rw [if_neg h6] at h
                by_cases h7 : anyKw EXPORT_WORDS t = true
                · rw [if_pos h7] at h
                  injection h with h
                  subst h
                  exact ⟨by decide, by intro hb hbm; cases hbm⟩
                · rw [if_neg h7] at h
                  cases h

/-- The simple fallback parse has an enum intent and taxonomy-only habits. -/
theorem simpleCore_intent_habits (t : List Char) :
    (simpleCore t).intent ∈ INTENT_ENUM ∧
      ∀ hb ∈ (simpleCore t).habits, hb ∈ COMMON_HABITS := by
  unfold simpleCore
  by_cases hd : anyKw DASHBOARD_KEYWORDS t = true
  · rw [if_pos hd]
    exact ⟨by decide, by intro hb hbm; cases hbm⟩
  · rw [if_neg hd]
    constructor
    · show (simpleIT t).1 ∈ INTENT_ENUM
      unfold simpleIT
      by_cases h1 : (hasSub "add".data t || hasSub "create".data t) = true
      · rw [if_pos h1]; decide
      · rw [if_neg h1]
        by_cases h2 : (hasSub "delete".data t || hasSub "remove".data t) = true
        · rw [if_pos h2]; decide
        · rw [if_neg h2]
          by_cases h3 : (hasSub "goal".data t && t.any Char.isDigit) = true
          · rw [if_pos h3]
            show "set_goal" ∈ INTENT_ENUM
            decide
          · rw [if_neg h3]; decide
    · intro hb hbm
      exact (List.mem_filter.mp hbm).1

/-- C1 (amended).  The interpreter always returns taxonomy-only habits; its
intent is one of the enum values whenever the result does not come verbatim
from an oracle response, but an oracle-supplied intent string is passed
through unvalidated (the source filters `habits` but never checks
`intent`). -/
theorem C1_habits_taxonomy_intent_enum_amended
    (oracle : Option OracleResp) (raw : String) :
    (∀ hb ∈ (parseVoiceCommand oracle raw).habits, hb ∈ COMMON_HABITS) ∧
    ((parseVoiceCommand oracle raw).intent ∈ INTENT_ENUM ∨
      ∃ r, oracle = some r ∧
        r.intent = some (parseVoiceCommand oracle raw).intent) := by
  unfold parseVoiceCommand
  cases he : enhancedVoiceParsing raw with
  | some c =>
    obtain ⟨hi, hh⟩ := enhancedCore_intent_habits he
    exact ⟨hh, Or.inl hi⟩
  | none =>
    cases oracle with
    | none =>
      obtain ⟨hi, hh⟩ := simpleCore_intent_habits (lowerData raw)
      exact ⟨hh, Or.inl hi⟩
    | some r =>
      obtain ⟨ri, rh, rd, rt⟩ := r
      cases ri with
      | none =>
        obtain ⟨hi, hh⟩ := simpleCore_intent_habits (lowerData raw)
        exact ⟨hh, Or.inl hi⟩
      | some i =>
        cases rh with
        | none =>
          obtain ⟨hi, hh⟩ := simpleCore_intent_habits (lowerData raw)
          exact ⟨hh, Or.inl hi⟩
        | some hs =>
          exact ⟨sanitize_sub hs, Or.inr ⟨⟨some i, some hs, rd, rt⟩, rfl, rfl⟩⟩

/-- Witness for the amended C1 at a concrete input with the oracle
unavailable. -/
theorem C1_habits_taxonomy_intent_enum_amended_witness :
    (∀ hb ∈ (parseVoiceCommand none "i did reading").habits, hb ∈ COMMON_HABITS) ∧
    ((parseVoiceCommand none "i did reading").intent ∈ INTENT_ENUM ∨
      ∃ r, (none : Option OracleResp) = some r ∧
        r.intent = some (parseVoiceCommand none "i did reading").intent) :=
  C1_habits_taxonomy_intent_enum_amended none "i did reading"

/-- Counterexample to C1 as stated: on input "hello" (which reaches the
oracle fallback) an oracle response with an empty `intent` is passed through
to the returned command, whose intent is then outside the enum. -/
theorem C1_counterexample :
    (parseVoiceCommand (some ⟨some "", some [], none, none⟩) "hello").intent ∉
      INTENT_ENUM := by decide

/-- C2.  When the deterministic steps do not match and the oracle call
fails, times out, returns unparsable output (`oracle = none`), or returns a
payload whose required `intent`/`habits` keys are missing (so that
`VoiceCommand(**data)` raises), the interpreter returns exactly the
deterministic fallback parse — it never propagates the error. -/
theorem C2_never_fails_falls_back_to_simple_parse
    (raw : String) (oracle : Option OracleResp)
    (hdet : enhancedVoiceParsing raw = none)
    (hfail : oracle = none ∨
      ∃ r, oracle = some r ∧ (r.intent = none ∨ r.habits = none)) :
    parseVoiceCommand oracle raw = simpleParseCmd raw := by
  unfold parseVoiceCommand
  rw [hdet]
  rcases hfail with rfl | ⟨r, rfl, hr⟩
  · rfl
  · obtain ⟨ri, rh, rd, rt⟩ := r
    rcases hr with hi | hh
    · simp only at hi
      subst hi
      rfl
    · simp only at hh
      subst hh
      cases ri <;> rfl

/-- Witness for C2 at the concrete input "hello" with an unreachable
oracle. -/
theorem C2_never_fails_witness :
    parseVoiceCommand none "hello" = simpleParseCmd "hello" :=
  C2_never_fails_falls_back_to_simple_parse "hello" none (by decide) (Or.inl rfl)

/-- Counterexample to C5 as stated: `_simple_parse("progress")` hits the
dashboard-keyword branch the claim omits, so the intent is "dashboard",
not "log". -/
theorem C5_counterexample :
    (simpleParseCmd "progress").intent = "dashboard" ∧
      ("dashboard" : String) ≠ "log" := by decide

/-- C5 (amended).  `_simple_parse` first returns a dashboard command (empty
habits, empty duration) when the text contains any `DASHBOARD_KEYWORDS`
entry; only otherwise does it follow the claim's add / delete / set_goal /
log keyword cascade, with habits exactly the taxonomy substring matches in
taxonomy order and duration the first `(\\d+)\\s*(hour|minute|min)s?`
match. -/
theorem C5_simple_parse_amended (text : String) :
    (anyKw DASHBOARD_KEYWORDS (lowerData text) = true →
       simpleParseCmd text = ⟨"dashboard", [], "", 0⟩) ∧
    (anyKw DASHBOARD_KEYWORDS (lowerData text) = false →
       (simpleParseCmd text).habits =
         COMMON_HABITS.filter (fun h => hasSub h.data (lowerData text)) ∧
       (simpleParseCmd text).duration = durationScan (lowerData text) ∧
       ((hasSub "add".data (lowerData text) || hasSub "create".data (lowerData text)) = true →
          (simpleParseCmd text).intent = "add" ∧ (simpleParseCmd text).target = 0) ∧
       ((hasSub "add".data (lowerData text) || hasSub "create".data (lowerData text)) = false →
        (hasSub "delete".data (lowerData text) || hasSub "remove".data (lowerData text)) = true →
          (simpleParseCmd text).intent = "delete" ∧ (simpleParseCmd text).target = 0) ∧
       ((hasSub "add".data (lowerData text) || hasSub "create".data (lowerData text)) = false →
        (hasSub "delete".data (lowerData text) || hasSub "remove".data (lowerData text)) = false →
        (hasSub "goal".data (lowerData text) && (lowerData text).any Char.isDigit) = true →
          (simpleParseCmd text).intent = "set_goal" ∧
          (simpleParseCmd text).target =
            (match firstDigitRun (lowerData text) with
             | some n => Int.ofNat (digitsToNat n)
             | none => 7)) ∧
       ((hasSub "add".data (lowerData text) || hasSub "create".data (lowerData text)) = false →
        (hasSub "delete".data (lowerData text) || hasSub "remove".data (lowerData text)) = false →
        (hasSub "goal".data (lowerData text) && (lowerData text).any Char.isDigit) = false →
          (simpleParseCmd text).intent = "log" ∧ (simpleParseCmd text).target = 0)) := by
  unfold simpleParseCmd simpleCore
  constructor
  · intro hd
    rw [if_pos hd]
  · intro hd
    rw [if_neg (by rw [hd]; exact Bool.false_ne_true)]
    refine ⟨rfl, rfl, ?_, ?_, ?_, ?_⟩
    · intro h1
      unfold simpleIT
      rw [if_pos h1]
      exact ⟨rfl, rfl⟩
    · intro h1 h2
      unfold simpleIT
      rw [if_neg (by rw [h1]; exact Bool.false_ne_true), if_pos h2]
      exact ⟨rfl, rfl⟩
    · intro h1 h2 h3
      unfold simpleIT
      rw [if_neg (by rw [h1]; exact Bool.false_ne_true),
          if_neg (by rw [h2]; exact Bool.false_ne_true), if_pos h3]
      exact ⟨rfl, rfl⟩
    · intro h1 h2 h3
      unfold simpleIT
      rw [if_neg (by rw [h1]; exact Bool.false_ne_true),
          if_neg (by rw [h2]; exact Bool.false_ne_true),
          if_neg (by rw [h3]; exact Bool.false_ne_true)]
      exact ⟨rfl, rfl⟩

/-- Witness for the amended C5 on a text with the dashboard keyword and on a
text following the plain cascade. -/
theorem C5_simple_parse_amended_witness :
    simpleParseCmd "progress" = ⟨"dashboard", [], "", 0⟩ ∧
      (simpleParseCmd "i did reading").intent = "log" :=
  ⟨(C5_simple_parse_amended "progress").1 (by decide),
   ((C5_simple_parse_amended "i did reading").2 (by decide)).2.2.2.2.2
     (by decide) (by decide) (by decide) |>.1⟩

/-! ## Action-executor lemmas -/

theorem length_sub_filter_bne (l : List HabitEvent) (h : String) :
    l.length - (l.filter (fun e => e.habit != h)).length =
      l.countP (fun e => e.habit == h) := by
  induction l with
  | nil => rfl
  | cons e rest ih =>
    have hle := List.length_filter_le (fun e : HabitEvent => e.habit != h) rest
    by_cases hb : (e.habit == h) = true
    · have hbne : (e.habit != h) = false := by
        simp only [bne, hb, Bool.not_true]
      simp [List.filter_cons, List.countP_cons, hbne, hb]
      omega
    · have hbf : (e.habit == h) = false := by
        cases hx : e.habit == h
        · rfl
        · exact absurd hx hb
      have hbne : (e.habit != h) = true := by
        simp only [bne, hbf, Bool.not_false]
      simp [List.filter_cons, List.countP_cons, hbne, hbf]
      omega

/-- The delete branch of `_execute_confirmed_action`, isolated. -/
theorem executeDelete_eq (s : ExecState) (p : PendingAction) (now : DateTime)
    (hdel : p.actionType = "delete") :
    executeConfirmedAction p s now =
      (if 0 < s.logs.length - (s.logs.filter (fun e => e.habit != p.habit)).length then
         ({ logs := s.logs.filter (fun e => e.habit != p.habit),
            goals := fun k => if k = p.habit then none else s.goals k },
          ExecMsg.deleted p.habit
            (s.logs.length - (s.logs.filter (fun e => e.habit != p.habit)).length))
       else ({ s with logs := s.logs.filter (fun e => e.habit != p.habit) },
             ExecMsg.warnNoEntries p.habit)) := by
  unfold executeConfirmedAction
  rw [hdel]
  rw [if_neg (by decide), if_neg (by decide), if_pos rfl]

/-- The add branch of `_execute_confirmed_action` for a not-yet-present
habit: it appends one `add` event and touches no other habit's goal. -/
theorem executeAdd_not_present (s : ExecState) (q : PendingAction) (now : DateTime)
    (hadd : q.actionType = "add") (hnp : q.habit ∉ s.logs.map HabitEvent.habit) :
    (executeConfirmedAction q s now).1.logs =
      s.logs ++ [⟨q.habit, "Added habit: " ++ q.habit, some now, "add", ""⟩] ∧
    ∀ k, k ≠ q.habit → (executeConfirmedAction q s now).1.goals k = s.goals k := by
  unfold executeConfirmedAction
  rw [hadd]
  rw [if_neg (by decide), if_pos rfl, if_neg hnp]
  cases hlk : DEFAULT_GOALS.lookup q.habit with
  | some tg =>
    refine ⟨rfl, ?_⟩
    intro k hk
    show (if k = q.habit then some ⟨tg, now, getHabitCategory q.habit⟩ else s.goals k)
      = s.goals k
    rw [if_neg hk]
  | none =>
    exact ⟨rfl, fun k _ => rfl⟩

/-- The add branch for an already-present habit is a no-op. -/
theorem executeAdd_present (s : ExecState) (q : PendingAction) (now : DateTime)
    (hadd : q.actionType = "add") (hmem : q.habit ∈ s.logs.map HabitEvent.habit) :
    executeConfirmedAction q s now = (s, ExecMsg.alreadyExists q.habit) := by
  unfold executeConfirmedAction
  rw [hadd]
  rw [if_neg (by decide), if_pos rfl, if_pos hmem]

/-- The log branch appends one event and leaves every goal unchanged. -/
theorem executeLog_components (s : ExecState) (p : PendingAction) (now : DateTime)
    (hlog : p.actionType = "log") :
    (executeConfirmedAction p s now).1.logs =
      s.logs ++ [⟨p.habit,
        (if p.duration = "" then "Completed " ++ p.habit
         else "Completed " ++ p.habit ++ " for " ++ p.duration), some now, "log",
        p.duration⟩] ∧
    ∀ k, (executeConfirmedAction p s now).1.goals k = s.goals k := by
  unfold executeConfirmedAction
  rw [hlog, if_pos rfl]
  exact ⟨rfl, fun k => rfl⟩

/-- C6.  A confirmed delete removes exactly the events of the target habit,
deletes its goal (leaving other goals untouched) when events matched,
performs no mutation and warns when none matched, and an add followed by a
confirmed delete of the same habit restores the original event list and
leaves no goal for the habit. -/
theorem C6_confirmed_delete (s : ExecState) (p : PendingAction) (now : DateTime)
    (hdel : p.actionType = "delete") :
    (executeConfirmedAction p s now).1.logs =
      s.logs.filter (fun e => e.habit != p.habit) ∧
    ((∃ e ∈ s.logs, e.habit = p.habit) →
       (executeConfirmedAction p s now).1.goals p.habit = none ∧
       (∀ k, k ≠ p.habit → (executeConfirmedAction p s now).1.goals k = s.goals k) ∧
       (executeConfirmedAction p s now).2 =
         ExecMsg.deleted p.habit (s.logs.countP (fun e => e.habit == p.habit))) ∧
    ((∀ e ∈ s.logs, e.habit ≠ p.habit) →
       (executeConfirmedAction p s now).1.logs = s.logs ∧
       (∀ k, (executeConfirmedAction p s now).1.goals k = s.goals k) ∧
       (executeConfirmedAction p s now).2 = ExecMsg.warnNoEntries p.habit) ∧
    (∀ q : PendingAction, q.actionType = "add" → q.habit = p.habit →
       (∀ e ∈ s.logs, e.habit ≠ p.habit) →
       (executeConfirmedAction p ((executeConfirmedAction q s now).1) now).1.logs = s.logs ∧
       (executeConfirmedAction p ((executeConfirmedAction q s now).1) now).1.goals
         p.habit = none ∧
       (∀ k, k ≠ p.habit →
         (executeConfirmedAction p ((executeConfirmedAction q s now).1) now).1.goals k =
           s.goals k)) := by
  have hde := executeDelete_eq s p now hdel
  have hlen := length_sub_filter_bne s.logs p.habit
  refine ⟨?_, ?_, ?_, ?_⟩
  · rw [hde]
    by_cases hpos : 0 < s.logs.length -
        (s.logs.filter (fun e => e.habit != p.habit)).length
    · rw [if_pos hpos]
    · rw [if_neg hpos]
  · rintro ⟨e, he, hh⟩
    have hpos : 0 < s.logs.length -
        (s.logs.filter (fun e => e.habit != p.habit)).length := by
      rw [hlen]
      exact List.countP_pos_iff.mpr ⟨e, he, beq_iff_eq.mpr hh⟩
    rw [hde, if_pos hpos]
    refine ⟨?_, ?_, ?_⟩
    · show (if p.habit = p.habit then none else s.goals p.habit) = none
      rw [if_pos rfl]
    · intro k hk
      show (if k = p.habit then none else s.goals k) = s.goals k
      rw [if_neg hk]
    · show ExecMsg.deleted p.habit _ = _
      rw [hlen]
  · intro hnone
    have hfe : s.logs.filter (fun e => e.habit != p.habit) = s.logs :=
      List.filter_eq_self.mpr (fun e he => bne_iff_ne.mpr (hnone e he))
    have hnpos : ¬ 0 < s.logs.length -
        (s.logs.filter (fun e => e.habit != p.habit)).length := by
      rw [hfe]
      omega
    rw [hde, if_neg hnpos]
    exact ⟨hfe, fun k => rfl, rfl⟩
  · intro q hq hqh hnone
    have hnp : q.habit ∉ s.logs.map HabitEvent.habit := by
      intro hmem
      obtain ⟨e, he, heq⟩ := List.mem_map.mp hmem
      exact hnone e he (heq.trans hqh)
    obtain ⟨hlogs1, hgoals1⟩ := executeAdd_not_present s q now hq hnp
    have hde1 := executeDelete_eq (executeConfirmedAction q s now).1 p now hdel
    have hfilter : (executeConfirmedAction q s now).1.logs.filter
        (fun e => e.habit != p.habit) = s.logs := by
      rw [hlogs1, List.filter_append]
      have hx1 : s.logs.filter (fun e => e.habit != p.habit) = s.logs :=
        List.filter_eq_self.mpr (fun e he => bne_iff_ne.mpr (hnone e he))
      have hx2 : ([(⟨q.habit, "Added habit: " ++ q.habit, some now, "add", ""⟩ :
          HabitEvent)]).filter (fun e => e.habit != p.habit) = [] := by
        simp [List.filter_cons, hqh]
      rw [hx1, hx2, List.append_nil]
    have hpos : 0 < (executeConfirmedAction q s now).1.logs.length -
        ((executeConfirmedAction q s now).1.logs.filter
          (fun e => e.habit != p.habit)).length := by
      rw [hfilter, hlogs1, List.length_append]
      simp
    rw [hde1, if_pos hpos]
    refine ⟨hfilter, ?_, ?_⟩
    · show (if p.habit = p.habit then none else _) = none
      rw [if_pos rfl]
    · intro k hk
      show (if k = p.habit then none else (executeConfirmedAction q s now).1.goals k)
        = s.goals k
      rw [if_neg hk]
      exact hgoals1 k (fun hx => hk (by rw [hx, hqh]))

/-- Witness state and pending action for C6. -/
def c6S : ExecState :=
  { logs := [⟨"reading", "Completed reading", some ⟨0, 0⟩, "log", ""⟩,
             ⟨"workout", "Completed workout", some ⟨0, 0⟩, "log", ""⟩],
    goals := fun _ => none }

def c6P : PendingAction :=
  ⟨"reading", "", "Delete reading and all its logs", "delete", "u", 0⟩

/-- Witness for C6 at a concrete state. -/
theorem C6_confirmed_delete_witness :
    (executeConfirmedAction c6P c6S ⟨1, 0⟩).1.logs =
      c6S.logs.filter (fun e => e.habit != c6P.habit) ∧
    ((∃ e ∈ c6S.logs, e.habit = c6P.habit) →
       (executeConfirmedAction c6P c6S ⟨1, 0⟩).1.goals c6P.habit = none ∧
       (∀ k, k ≠ c6P.habit →
         (executeConfirmedAction c6P c6S ⟨1, 0⟩).1.goals k = c6S.goals k) ∧
       (executeConfirmedAction c6P c6S ⟨1, 0⟩).2 =
         ExecMsg.deleted c6P.habit (c6S.logs.countP (fun e => e.habit == c6P.habit))) ∧
    ((∀ e ∈ c6S.logs, e.habit ≠ c6P.habit) →
       (executeConfirmedAction c6P c6S ⟨1, 0⟩).1.logs = c6S.logs ∧
       (∀ k, (executeConfirmedAction c6P c6S ⟨1, 0⟩).1.goals k = c6S.goals k) ∧
       (executeConfirmedAction c6P c6S ⟨1, 0⟩).2 = ExecMsg.warnNoEntries c6P.habit) ∧
    (∀ q : PendingAction, q.actionType = "add" → q.habit = c6P.habit →
       (∀ e ∈ c6S.logs, e.habit ≠ c6P.habit) →
       (executeConfirmedAction c6P ((executeConfirmedAction q c6S ⟨1, 0⟩).1) ⟨1, 0⟩).1.logs
         = c6S.logs ∧
       (executeConfirmedAction c6P ((executeConfirmedAction q c6S ⟨1, 0⟩).1) ⟨1, 0⟩).1.goals
         c6P.habit = none ∧
       (∀ k, k ≠ c6P.habit →
         (executeConfirmedAction c6P ((executeConfirmedAction q c6S ⟨1, 0⟩).1)
           ⟨1, 0⟩).1.goals k = c6S.goals k)) :=
  C6_confirmed_delete c6S c6P ⟨1, 0⟩ rfl

/-- C8.  The per-interaction timeout check clears (and reports) a pending
action strictly older than 300 seconds and leaves a younger one in place;
it performs no executor mutation (its result is only the pending slot and
the report flag). -/
theorem C8_session_timeout (now : ℚ) (p : PendingAction) :
    (now - p.timestamp > 300 → checkSessionTimeout now (some p) = (none, true)) ∧
    (now - p.timestamp ≤ 300 → checkSessionTimeout now (some p) = (some p, false)) := by
  constructor
  · intro h
    show (if now - p.timestamp > 300 then ((none : Option PendingAction), true)
          else (some p, false)) = (none, true)
    rw [if_pos h]
  · intro h
    show (if now - p.timestamp > 300 then ((none : Option PendingAction), true)
          else (some p, false)) = (some p, false)
    rw [if_neg (not_lt.mpr h)]

/-- Witness for C8 on both sides of the 300-second boundary. -/
theorem C8_session_timeout_witness :
    checkSessionTimeout 400 (some ⟨"reading", "", "Completed reading", "log", "u", 50⟩)
      = (none, true) ∧
    checkSessionTimeout 200 (some ⟨"reading", "", "Completed reading", "log", "u", 50⟩)
      = (some ⟨"reading", "", "Completed reading", "log", "u", 50⟩, false) :=
  ⟨(C8_session_timeout 400 ⟨"reading", "", "Completed reading", "log", "u", 50⟩).1
     (by norm_num),
   (C8_session_timeout 200 ⟨"reading", "", "Completed reading", "log", "u", 50⟩).2
     (by norm_num)⟩

theorem filter_habit_comm (l : List HabitEvent) (a b : String) (hab : b ≠ a) :
    (l.filter (fun e => e.habit != a)).filter (fun e => e.habit == b) =
      l.filter (fun e => e.habit == b) := by
  rw [List.filter_filter]
  apply List.filter_congr
  intro e _
  by_cases hb : (e.habit == b) = true
  · have heb : e.habit = b := beq_iff_eq.mp hb
    have hna : (e.habit != a) = true := bne_iff_ne.mpr (by rw [heb]; exact hab)
    rw [hb, hna]
    rfl
  · have hbf : (e.habit == b) = false := by
      cases hx : e.habit == b
      · rfl
      · exact absurd hx hb
    rw [hbf]
    simp

/-- C9.  For a `log`/`add`/`delete` command with several habits, only the
first habit enters the pending action; confirming it leaves the events and
goal of every other habit untouched. -/
theorem C9_only_first_habit (cmd : VoiceCommand) (user : String) (ts : ℚ)
    (s : ExecState) (now : DateTime) (h1 h2 : String) (rest : List String)
    (h2' : String)
    (hh : cmd.habits = h1 :: h2 :: rest)
    (hi : cmd.intent = "log" ∨ cmd.intent = "add" ∨ cmd.intent = "delete")
    (hne : h2' ≠ h1) :
    handleHabitAction cmd user ts = HandleOut.confirmPending (mkPendingFor cmd user ts) ∧
    (mkPendingFor cmd user ts).habit = h1 ∧
    (executeConfirmedAction (mkPendingFor cmd user ts) s now).1.logs.filter
        (fun e => e.habit == h2') = s.logs.filter (fun e => e.habit == h2') ∧
    (executeConfirmedAction (mkPendingFor cmd user ts) s now).1.goals h2' =
      s.goals h2' := by
  have hphabit : (mkPendingFor cmd user ts).habit = h1 := by
    unfold mkPendingFor
    rw [hh]
    rfl
  have hptype : (mkPendingFor cmd user ts).actionType = cmd.intent := rfl
  have hbe : ((mkPendingFor cmd user ts).habit == h2') = false := by
    rw [hphabit]
    exact beq_eq_false_iff_ne.mpr (fun hx => hne hx.symm)
  refine ⟨?_, hphabit, ?_⟩
  · unfold handleHabitAction
    have hd : ¬ cmd.intent = "dashboard" := by
      rcases hi with h | h | h <;> rw [h] <;> decide
    have hsg : ¬ cmd.intent = "set_goal" := by
      rcases hi with h | h | h <;> rw [h] <;> decide
    have hrt : cmd.intent ∉
        ["streak_query", "progress_query", "help", "export", "confirm", "cancel"] := by
      rcases hi with h | h | h <;> rw [h] <;> decide
    have hmem : cmd.intent ∈ ["add", "log", "delete"] := by
      rcases hi with h | h | h <;> rw [h] <;> decide
    rw [if_neg hd, if_neg hsg, if_neg hrt]
    simp only [hh]
    rw [if_pos hmem]
  · rcases hi with hint | hint | hint
    · have hty : (mkPendingFor cmd user ts).actionType = "log" := hptype.trans hint
      obtain ⟨hlogs1, hgoals1⟩ := executeLog_components s (mkPendingFor cmd user ts) now hty
      refine ⟨?_, hgoals1 h2'⟩
      rw [hlogs1, List.filter_append]
      have hx : ([(⟨(mkPendingFor cmd user ts).habit,
          (if (mkPendingFor cmd user ts).duration = ""
           then "Completed " ++ (mkPendingFor cmd user ts).habit
           else "Completed " ++ (mkPendingFor cmd user ts).habit ++ " for " ++
             (mkPendingFor cmd user ts).duration), some now, "log",
          (mkPendingFor cmd user ts).duration⟩ : HabitEvent)]).filter
            (fun e => e.habit == h2') = [] := by
        simp [List.filter_cons, hbe]
      rw [hx, List.append_nil]
    · have hty : (mkPendingFor cmd user ts).actionType = "add" := hptype.trans hint
      by_cases hmem : (mkPendingFor cmd user ts).habit ∈ s.logs.map HabitEvent.habit
      · rw [executeAdd_present s (mkPendingFor cmd user ts) now hty hmem]
        exact ⟨rfl, rfl⟩
      · obtain ⟨hlogs1, hgoals1⟩ :=
          executeAdd_not_present s (mkPendingFor cmd user ts) now hty hmem
        refine ⟨?_, hgoals1 h2' (by rw [hphabit]; exact hne)⟩
        rw [hlogs1, List.filter_append]
        have hx : ([(⟨(mkPendingFor cmd user ts).habit,
            "Added habit: " ++ (mkPendingFor cmd user ts).habit, some now, "add",
            ""⟩ : HabitEvent)]).filter (fun e => e.habit == h2') = [] := by
          simp [List.filter_cons, hbe]
        rw [hx, List.append_nil]
    · have hty : (mkPendingFor cmd user ts).actionType = "delete" := hptype.trans hint
      have hde := executeDelete_eq s (mkPendingFor cmd user ts) now hty
      rw [hde]
      by_cases hpos : 0 < s.logs.length -
          (s.logs.filter (fun e => e.habit != (mkPendingFor cmd user ts).habit)).length
      · rw [if_pos hpos]
        constructor
        · exact filter_habit_comm s.logs (mkPendingFor cmd user ts).habit h2'
            (by rw [hphabit]; exact hne)
        · show (if h2' = (mkPendingFor cmd user ts).habit then none else s.goals h2')
            = s.goals h2'
          rw [if_neg (by rw [hphabit]; exact hne)]
      · rw [if_neg hpos]
        constructor
        · exact filter_habit_comm s.logs (mkPendingFor cmd user ts).habit h2'
            (by rw [hphabit]; exact hne)
        · rfl

/-- Witness for C9 at a concrete two-habit log command. -/
theorem C9_only_first_habit_witness :
    handleHabitAction ⟨"log", ["reading", "workout"], "", 0⟩ "u" 0 =
      HandleOut.confirmPending (mkPendingFor ⟨"log", ["reading", "workout"], "", 0⟩ "u" 0) ∧
    (mkPendingFor ⟨"log", ["reading", "workout"], "", 0⟩ "u" 0).habit = "reading" ∧
    (executeConfirmedAction (mkPendingFor ⟨"log", ["reading", "workout"], "", 0⟩ "u" 0)
        ⟨[], fun _ => none⟩ ⟨0, 0⟩).1.logs.filter (fun e => e.habit == "workout") =
      (⟨[], fun _ => none⟩ : ExecState).logs.filter (fun e => e.habit == "workout") ∧
    (executeConfirmedAction (mkPendingFor ⟨"log", ["reading", "workout"], "", 0⟩ "u" 0)
        ⟨[], fun _ => none⟩ ⟨0, 0⟩).1.goals "workout" =
      (⟨[], fun _ => none⟩ : ExecState).goals "workout" :=
  C9_only_first_habit ⟨"log", ["reading", "workout"], "", 0⟩ "u" 0
    ⟨[], fun _ => none⟩ ⟨0, 0⟩ "reading" "workout" [] "workout" rfl (Or.inl rfl)
    (by decide)

end Habito
